import Mathlib

/-!
Verification of the YouTube keyword research tool
(`youtube_keyword_scraper.py`) against its design document.

The Python source is shallowly embedded: external calls (YouTube Data API
search, comment-thread pagination, yt-dlp extraction) are modelled by
explicit response values fed to the embedded functions, so that every
control path of the source (success, error, pagination, fallback) is a
value of an inductive type.  Whitespace is modelled as the six ASCII
whitespace characters recognised by Python's `str.strip` and `\S`;
comments and keywords in the claims are ASCII, so the restriction is
inessential.
-/

/-- The six ASCII whitespace characters of Python's `str.strip` / regex `\s`. -/
def isSpace (c : Char) : Bool :=
  c = ' ' || c = '\t' || c = '\n' || c = '\r' || c = '\x0b' || c = '\x0c'

/-- Negation of `isSpace`, Python's `\S`. -/
def notSpace (c : Char) : Bool := !isSpace c

/-- True when the list is non-empty and headed by a non-whitespace character:
the condition for `\S+` to match at this position. -/
def nonSpaceHead : List Char → Bool
  | [] => false
  | c :: _ => notSpace c

/-- The literal `http` of the regex alternative `http\S+`. -/
def httpChars : List Char := ['h', 't', 't', 'p']

/-- The literal `www` of the regex alternative `www\S+`. -/
def wwwChars : List Char := ['w', 'w', 'w']

/-- Whether the regex `http\S+|www\S+` (line 171 of the source) matches at
the start of `cs`: the first alternative needs the literal `http` followed
by at least one non-whitespace character, the second the literal `www`
followed by at least one non-whitespace character. -/
def fire (cs : List Char) : Bool :=
  (decide (cs.take 4 = httpChars) && nonSpaceHead (cs.drop 4)) ||
  (decide (cs.take 3 = wwwChars) && nonSpaceHead (cs.drop 3))

/-- One left-to-right pass of `re.sub(r'http\S+|www\S+', '', comment)`.
In the `false` state the scanner is between matches: a position where the
pattern fires starts a match, which (because both alternatives consist of
non-whitespace literals followed by a greedy `\S+`) extends exactly to the
end of the maximal run of non-whitespace characters; the `true` state skips
that run and re-emits the terminating whitespace character, after which
scanning resumes. -/
def stripGo : Bool → List Char → List Char
  | _, [] => []
  | true, c :: cs => if isSpace c then c :: stripGo false cs else stripGo true cs
  | false, c :: cs => if fire (c :: cs) then stripGo true cs else c :: stripGo false cs

/-- `re.sub(r'http\S+|www\S+', '', ·)` on a character list. -/
def stripUrls (cs : List Char) : List Char := stripGo false cs

/-- Python `str.strip()`: drop leading and trailing whitespace. -/
def pyStrip (cs : List Char) : List Char :=
  ((cs.dropWhile isSpace).reverse.dropWhile isSpace).reverse

/-- Lines 171-172 of the source: remove URL-like matches, then strip
surrounding whitespace. -/
def cleanComment (s : String) : String :=
  String.mk (pyStrip (stripUrls s.data))

/-- One page of the `commentThreads` API: the top-level comment texts of its
items and whether the response carries a `nextPageToken`. -/
structure Page where
  items : List String
  hasNext : Bool
deriving DecidableEq

/-- Outcome of one `request.execute()` of the comment pagination: either a
page, or a raised exception (network/auth/quota). -/
inductive PageResponse where
  | ok : Page → PageResponse
  | err : PageResponse
deriving DecidableEq

/-- The inner `for item in response.get('items', [])` loop of lines 168-175:
clean each comment and keep it when the cleaned text is longer than 10. -/
def cleanItems (items : List String) : List String :=
  items.filterMap fun raw =>
    let c := cleanComment raw
    if 10 < c.length then some c else none

/-- Result of the `while` loop of lines 165-188: either normal exit with the
accumulated comments, or an exception caught by the `except` of line 192;
in both cases the requested page sizes of the executed API calls are
recorded.  The accumulated list is kept in the failure case as a ghost
value so that the failure policy can be stated. -/
inductive FetchResult where
  | success : List String → List Nat → FetchResult
  | failure : List String → List Nat → FetchResult
deriving DecidableEq

/-- The pagination loop of lines 165-188.  The live API is replaced by the
script `responses`: the n-th executed request receives the n-th entry.  A
pending request with size `pendingSize` exists on entry; `acc` holds the
comments accumulated so far (with `acc.length < maxC`), `sizes` the
requested page sizes so far.  Exhaustion of the finite script ends the
run with the accumulated comments.  After a page, a next request of size
`min 100 (maxC - acc'.length)` (line 184) is created exactly when the
response has a continuation token and the count is below the cap
(line 178). -/
def fetchGo (maxC : Nat) : Nat → List PageResponse → List String → List Nat → FetchResult
  | _, [], acc, sizes => .success acc sizes
  | pendingSize, .err :: _, acc, sizes => .failure acc (sizes ++ [pendingSize])
  | pendingSize, .ok p :: rest, acc, sizes =>
    let acc' := acc ++ cleanItems p.items
    let sizes' := sizes ++ [pendingSize]
    if p.hasNext && decide (acc'.length < maxC) then
      fetchGo maxC (min 100 (maxC - acc'.length)) rest acc' sizes'
    else
      .success acc' sizes'

/-- The loop of `get_video_comments`, entered only when the guard
`request and len(comments) < max_comments` holds initially; the first
request has size `min 100 maxC` (line 161). -/
def runFetch (maxC : Nat) (responses : List PageResponse) : FetchResult :=
  if 0 < maxC then fetchGo maxC (min 100 maxC) responses [] [] else .success [] []

/-- Comments accumulated when the loop stopped (normally or by exception). -/
def fetchAccum : FetchResult → List String
  | .success cs _ => cs
  | .failure cs _ => cs

/-- Whether the loop was ended by an exception. -/
def fetchFailed : FetchResult → Bool
  | .success _ _ => false
  | .failure _ _ => true

/-- Requested page sizes of the executed API calls, in order. -/
def fetchSizes : FetchResult → List Nat
  | .success _ s => s
  | .failure _ s => s

/-- `YouTubeKeywordResearcher.get_video_comments` (lines 140-194): without
an API handle it returns `[]` (line 154); a caught exception returns `[]`
(line 194); normal exit returns `comments[:max_comments]` (line 190). -/
def get_video_comments (hasApi : Bool) (maxC : Nat) (responses : List PageResponse) : List String :=
  if !hasApi then []
  else
    match runFetch maxC responses with
    | .success cs _ => cs.take maxC
    | .failure _ _ => []

/-- Number of API calls `get_video_comments` executes on this script. -/
def numCalls (maxC : Nat) (responses : List PageResponse) : Nat :=
  (fetchSizes (runFetch maxC responses)).length

/-- Number of accepted (cleaned, length > 10) comments a response
contributes. -/
def pageGain : PageResponse → Nat
  | .ok p => (cleanItems p.items).length
  | .err => 0

/-- Accepted comments accumulated over the first `i` responses. -/
def acceptedCount (responses : List PageResponse) (i : Nat) : Nat :=
  ((responses.take i).map pageGain).sum

/-- Reference recursion for the page sizes the loop requests, carrying only
the count of comments already accepted. -/
def specSizes (maxC : Nat) : Nat → List PageResponse → List Nat
  | _, [] => []
  | already, .err :: _ => [min 100 (maxC - already)]
  | already, .ok p :: rest =>
    let already' := already + (cleanItems p.items).length
    min 100 (maxC - already) ::
      (if p.hasNext && decide (already' < maxC) then specSizes maxC already' rest else [])

/-- A video record as built by `search_videos` (lines 96-101). -/
structure Video where
  id : String
  title : String
  channel : String
  url : String
deriving DecidableEq

/-- One raw item of the API search response (`item['id']['videoId']`,
`item['snippet']['title']`, `item['snippet']['channelTitle']`). -/
structure RawSearchItem where
  videoId : String
  title : String
  channel : String
deriving DecidableEq

/-- Outcome of `request.execute()` of the search request: the raw items of
the response, or a raised exception. -/
inductive SearchResponse where
  | ok : List RawSearchItem → SearchResponse
  | err : SearchResponse
deriving DecidableEq

/-- Lines 91-101: map one raw result to a video dict; the URL is derived
from the id. -/
def toVideo (it : RawSearchItem) : Video :=
  { id := it.videoId, title := it.title, channel := it.channel,
    url := "https://www.youtube.com/watch?v=" ++ it.videoId }

/-- The API path of `YouTubeKeywordResearcher.search_videos` (lines 79-109):
the request is issued with `maxResults = self.max_videos`, but every item
of the response is mapped — the code never truncates the returned list.
A caught exception yields `[]` (line 109). -/
def search_videos (resp : SearchResponse) : List Video :=
  match resp with
  | .ok items => items.map toVideo
  | .err => []

/-- One entry of the yt-dlp flat extraction (`item['id']`, `item['title']`,
optional `item['uploader']`). -/
structure YtdlpEntry where
  id : String
  title : String
  uploader : Option String
deriving DecidableEq

/-- Outcome of the fallback extraction inside the `try` of lines 114-135:
either the full entry list, or an exception raised after some prefix of the
entries was already mapped. -/
inductive YtdlpOutcome where
  | ok : List YtdlpEntry → YtdlpOutcome
  | errAfter : List YtdlpEntry → YtdlpOutcome
deriving DecidableEq

/-- Lines 126-132: map one yt-dlp entry; a missing uploader becomes the
sentinel `"Inconnu"`. -/
def entryToVideo (e : YtdlpEntry) : Video :=
  { id := e.id, title := e.title, channel := e.uploader.getD "Inconnu",
    url := "https://www.youtube.com/watch?v=" ++ e.id }

/-- `YouTubeKeywordResearcher._search_with_yt_dlp` (lines 111-138): the
whole body is inside `try`; any exception — also one raised after part of
the entries were processed — reaches the `except` of line 136 and the
function returns `[]`, discarding the partial list. -/
def searchWithYtDlp : YtdlpOutcome → List Video
  | .ok entries => entries.map entryToVideo
  | .errAfter _ => []

/-- `search_videos` with its credential gate (lines 75-77): without an API
handle the fallback scraper is used. -/
def search_videos_full (hasApi : Bool) (apiResp : SearchResponse) (fallback : YtdlpOutcome) :
    List Video :=
  if hasApi then search_videos apiResp else searchWithYtDlp fallback

/-- `"=" * 80` and `"-" * 80`. -/
def eqBar : String := String.mk (List.replicate 80 '=')

def dashBar : String := String.mk (List.replicate 80 '-')

/-- The inner `for i, comment in enumerate(comments, 1)` loop of lines
226-228: each comment produces a numbered line followed by a blank line. -/
def commentLines : Nat → List String → List String
  | _, [] => []
  | i, c :: rest => (toString i ++ ". " ++ c) :: "" :: commentLines (i + 1) rest

/-- The body of one iteration of the `for idx, video in enumerate(videos, 1)`
loop of lines 215-231. -/
def videoSection (idx : Nat) (v : Video) (cs : List String) : List String :=
  [dashBar,
   "VIDÉO " ++ toString idx ++ ": " ++ v.title,
   "Canal: " ++ v.channel,
   "URL: " ++ v.url,
   ""] ++
  (if cs.isEmpty then
    ["❌ Aucun commentaire disponible pour cette vidéo", ""]
  else
    ("📝 TOP " ++ toString cs.length ++ " COMMENTAIRES:") :: "" :: commentLines 1 cs)

/-- The video loop of lines 215-231, with its 1-based counter.  The comment
mapping `cm` models `all_comments.get(video['id'], [])`. -/
def reportBody (idx : Nat) (videos : List Video) (cm : String → List String) : List String :=
  match videos with
  | [] => []
  | v :: rest => videoSection idx v (cm v.id) ++ reportBody (idx + 1) rest cm

/-- The header lines of the report (lines 209-213); `now` stands for the
`datetime.now()` timestamp string. -/
def reportHeader (keyword : String) (nVideos : Nat) (now : String) : List String :=
  [eqBar,
   "📊 RAPPORT DE RECHERCHE YOUTUBE - " ++ keyword.toUpper,
   eqBar,
   "Date: " ++ now,
   "Nombre de vidéos analysées: " ++ toString nVideos ++ "\n"]

/-- The footer lines (lines 233-235). -/
def reportFooter : List String := [eqBar, "✅ FIN DU RAPPORT", eqBar]

/-- `"\n".join(report)` (line 237). -/
def joinLines : List String → String
  | [] => ""
  | [l] => l
  | l :: rest => l ++ "\n" ++ joinLines rest

/-- `YouTubeKeywordResearcher.generate_report` (lines 196-237). -/
def generate_report (keyword : String) (videos : List Video) (cm : String → List String)
    (now : String) : String :=
  joinLines (reportHeader keyword videos.length now ++ reportBody 1 videos cm ++ reportFooter)

/-- The fixed message returned when the search yields no videos
(line 257). -/
def noResultsMessage : String := "Aucune vidéo trouvée pour cette recherche."

/-- `YouTubeKeywordResearcher.run` (lines 239-274).  The external world is
the search response (API or fallback) and, per video id, the scripted
comment-page responses.  The keyword is passed to the search step and the
report with no validation of any kind; the per-video comment cap is the
hard-coded `max_comments=20` of line 267. -/
def run (hasApi : Bool) (apiResp : SearchResponse) (fallback : YtdlpOutcome)
    (world : String → List PageResponse) (now keyword : String) : String :=
  let videos := search_videos_full hasApi apiResp fallback
  if videos.isEmpty then
    noResultsMessage
  else
    generate_report keyword videos (fun id => get_video_comments hasApi 20 (world id)) now

/-- Whether a whitespace-delimited token is URL-like in the sense of the
design document: it begins with a web-scheme prefix or a bare `www.`
prefix. -/
def isUrlToken (tok : List Char) : Bool :=
  ('h' :: 't' :: 't' :: 'p' :: ':' :: '/' :: '/' :: []).isPrefixOf tok ||
  ('h' :: 't' :: 't' :: 'p' :: 's' :: ':' :: '/' :: '/' :: []).isPrefixOf tok ||
  ('w' :: 'w' :: 'w' :: '.' :: []).isPrefixOf tok

/-- Modelled from the spec (§4.3), for comparison against the code's
cleaner: "strips all substrings matching URL-like patterns (tokens
beginning with a web-scheme prefix or a bare `www.` prefix)".  State 0 is
at a token boundary, state 1 inside a kept token, state 2 inside a
stripped token; whitespace separators are kept. -/
def specGo : Nat → List Char → List Char
  | _, [] => []
  | 0, c :: cs =>
    if isSpace c then c :: specGo 0 cs
    else if isUrlToken ((c :: cs).takeWhile notSpace) then specGo 2 cs
    else c :: specGo 1 cs
  | 1, c :: cs => if isSpace c then c :: specGo 0 cs else c :: specGo 1 cs
  | _, c :: cs => if isSpace c then c :: specGo 0 cs else specGo 2 cs

/-- Modelled from the spec (§4.3): strip URL-like tokens, then trim
leading/trailing whitespace. -/
def specClean (s : String) : String :=
  String.mk (pyStrip (specGo 0 s.data))

example : cleanComment "Check this out http://spam.example/x and www.more.example"
    = "Check this out  and" := by decide

example : cleanComment "this is awwwesome indeed" = "this is a indeed" := by decide

example : cleanComment "  nice!  " = "nice!" := by decide

/-- No position of `cs` starts a match of the URL regex. -/
def noFire (cs : List Char) : Prop := ∀ n, fire (cs.drop n) = false

theorem noFire_nil : noFire [] := by
  intro n
  rw [List.drop_nil]
  decide

theorem noFire_cons_iff {c : Char} {cs : List Char} :
    noFire (c :: cs) ↔ fire (c :: cs) = false ∧ noFire cs := by
  constructor
  · intro h
    refine ⟨h 0, fun n => ?_⟩
    simpa using h (n + 1)
  · rintro ⟨h0, h⟩ n
    cases n with
    | zero => exact h0
    | succ n => simpa using h n

/-- Shape characterisation of a regex match at the head of the list. -/
theorem fire_eq_true_iff (cs : List Char) : fire cs = true ↔
    (∃ d r, cs = 'h' :: 't' :: 't' :: 'p' :: d :: r ∧ notSpace d = true) ∨
    (∃ d r, cs = 'w' :: 'w' :: 'w' :: d :: r ∧ notSpace d = true) := by
  constructor
  · intro h
    match cs with
    | [] => simp [fire, httpChars, wwwChars, nonSpaceHead] at h
    | [a] => simp [fire, httpChars, wwwChars, nonSpaceHead] at h
    | [a, b] => simp [fire, httpChars, wwwChars, nonSpaceHead] at h
    | [a, b, c] => simp [fire, httpChars, wwwChars, nonSpaceHead] at h
    | a :: b :: c :: d :: rest =>
      simp only [fire, httpChars, wwwChars, List.take, List.drop, Bool.or_eq_true,
        Bool.and_eq_true, decide_eq_true_eq, List.cons.injEq, and_true] at h
      rcases h with ⟨⟨ha, hb, hc, hd⟩, hns⟩ | ⟨⟨ha, hb, hc⟩, hns⟩
      · subst ha; subst hb; subst hc; subst hd
        match rest, hns with
        | e :: r, hns =>
          exact Or.inl ⟨e, r, rfl, by simpa [nonSpaceHead] using hns⟩
      · subst ha; subst hb; subst hc
        exact Or.inr ⟨d, rest, rfl, by simpa [nonSpaceHead] using hns⟩
  · rintro (⟨d, r, rfl, hd⟩ | ⟨d, r, rfl, hd⟩) <;>
      simp [fire, httpChars, wwwChars, nonSpaceHead, hd]

theorem fire_space_head {c : Char} {cs : List Char} (h : isSpace c = true) :
    fire (c :: cs) = false := by
  cases hf : fire (c :: cs)
  · rfl
  · exfalso
    rcases (fire_eq_true_iff _).mp hf with ⟨d, r, heq, _⟩ | ⟨d, r, heq, _⟩
    · cases heq
      simp [isSpace] at h
    · cases heq
      simp [isSpace] at h

/-- A match inside a `take` prefix is a match in the full list. -/
theorem fire_take {ds : List Char} {j : Nat} (h : fire (ds.take j) = true) :
    fire ds = true := by
  rcases (fire_eq_true_iff _).mp h with ⟨d, r, heq, hd⟩ | ⟨d, r, heq, hd⟩
  · have hds : ds = 'h' :: 't' :: 't' :: 'p' :: d :: (r ++ ds.drop j) := by
      conv_lhs => rw [← List.take_append_drop j ds]
      rw [heq]
      rfl
    rw [fire_eq_true_iff]
    exact Or.inl ⟨d, r ++ ds.drop j, hds, hd⟩
  · have hds : ds = 'w' :: 'w' :: 'w' :: d :: (r ++ ds.drop j) := by
      conv_lhs => rw [← List.take_append_drop j ds]
      rw [heq]
      rfl
    rw [fire_eq_true_iff]
    exact Or.inr ⟨d, r ++ ds.drop j, hds, hd⟩

theorem noFire_drop {cs : List Char} (h : noFire cs) (k : Nat) : noFire (cs.drop k) := by
  intro n
  rw [List.drop_drop]
  exact h (k + n)

theorem noFire_take {cs : List Char} (h : noFire cs) (m : Nat) : noFire (cs.take m) := by
  intro n
  rw [List.drop_take]
  cases hf : fire ((cs.drop n).take (m - n))
  · rfl
  · exact absurd (fire_take hf) (by simp [h n])

theorem noFire_append_left {t j : List Char} (h : noFire (t ++ j)) : noFire t := by
  have := noFire_take h t.length
  rwa [List.take_left] at this

theorem dropWhile_head_false {α : Type} {p : α → Bool} :
    ∀ {l : List α} {c : α} {r : List α}, l.dropWhile p = c :: r → p c = false := by
  intro l
  induction l with
  | nil => intro c r h; simp at h
  | cons x xs ih =>
    intro c r h
    by_cases hx : p x
    · rw [List.dropWhile_cons_of_pos hx] at h
      exact ih h
    · rw [List.dropWhile_cons_of_neg hx] at h
      cases h
      exact Bool.of_not_eq_true hx

theorem noFire_dropWhile {p : Char → Bool} :
    ∀ {cs : List Char}, noFire cs → noFire (cs.dropWhile p) := by
  intro cs
  induction cs with
  | nil => intro h; simpa using h
  | cons c cs ih =>
    intro h
    by_cases hc : p c
    · rw [List.dropWhile_cons_of_pos hc]
      exact ih (noFire_cons_iff.mp h).2
    · rwa [List.dropWhile_cons_of_neg hc]

theorem length_dropWhile_le {α : Type} (p : α → Bool) :
    ∀ l : List α, (l.dropWhile p).length ≤ l.length := by
  intro l
  induction l with
  | nil => simp
  | cons x xs ih =>
    by_cases hx : p x
    · rw [List.dropWhile_cons_of_pos hx]
      exact Nat.le_trans ih (Nat.le_succ _)
    · rw [List.dropWhile_cons_of_neg hx]

/-- In skip state the scanner drops the rest of the current non-whitespace
run, then behaves as in scan state. -/
theorem stripGo_true_eq : ∀ cs : List Char,
    stripGo true cs = stripGo false (cs.dropWhile notSpace) := by
  intro cs
  induction cs with
  | nil => rfl
  | cons c cs ih =>
    by_cases hc : isSpace c
    · have hns : notSpace c = false := by simp [notSpace, hc]
      rw [List.dropWhile_cons_of_neg (by simp [hns])]
      show (if isSpace c then c :: stripGo false cs else stripGo true cs) = _
      rw [if_pos hc]
      show _ = (if fire (c :: cs) then stripGo true cs else c :: stripGo false cs)
      rw [if_neg (by simp [fire_space_head hc])]
    · have hns : notSpace c = true := by simp [notSpace, hc]
      rw [List.dropWhile_cons_of_pos hns]
      show (if isSpace c then c :: stripGo false cs else stripGo true cs) = _
      rw [if_neg hc]
      exact ih

/-- A non-whitespace prefix of the scanner's output is copied verbatim from
the input: any removal inside it would have left a whitespace character or
the end of the string at the seam. -/
theorem stripGo_take_eq : ∀ n : Nat, ∀ cs : List Char, cs.length ≤ n → ∀ k : Nat,
    k ≤ (stripGo false cs).length →
    (∀ x ∈ (stripGo false cs).take k, notSpace x = true) →
    (stripGo false cs).take k = cs.take k := by
  intro n
  induction n with
  | zero =>
    intro cs hlen k _ _
    match cs, hlen with
    | [], _ => rfl
  | succ n ih =>
    intro cs hlen k hk hns
    match cs with
    | [] => rfl
    | c :: cs' =>
      by_cases hf : fire (c :: cs') = true
      · have hout : stripGo false (c :: cs') = stripGo false (cs'.dropWhile notSpace) := by
          show (if fire (c :: cs') then stripGo true cs' else c :: stripGo false cs') = _
          rw [if_pos hf, stripGo_true_eq]
        match k with
        | 0 => simp
        | k + 1 =>
          exfalso
          rw [hout] at hk hns
          match hds : cs'.dropWhile notSpace with
          | [] =>
            rw [hds] at hk
            simp [stripGo] at hk
          | s :: r =>
            have hs : isSpace s = true := by
              have := dropWhile_head_false hds
              simpa [notSpace] using this
            rw [hds] at hk hns
            have hgo : stripGo false (s :: r) = s :: stripGo false r := by
              show (if fire (s :: r) then stripGo true r else s :: stripGo false r) = _
              rw [if_neg (by simp [fire_space_head hs])]
            rw [hgo] at hns
            have := hns s (by simp [List.take])
            simp [notSpace, hs] at this
      · have hout : stripGo false (c :: cs') = c :: stripGo false cs' := by
          show (if fire (c :: cs') then stripGo true cs' else c :: stripGo false cs') = _
          rw [if_neg hf]
        match k with
        | 0 => simp
        | k + 1 =>
          rw [hout] at hk hns ⊢
          have hk' : k ≤ (stripGo false cs').length := by simpa using hk
          have hns' : ∀ x ∈ (stripGo false cs').take k, notSpace x = true := by
            intro x hx
            exact hns x (by simp [List.take, hx])
          have := ih cs' (by simpa using Nat.le_of_succ_le_succ hlen) k hk' hns'
          simp [List.take, this]

/-- If the pattern does not fire at a position of the input, it does not
fire at the corresponding position of the output. -/
theorem fire_stripGo_false {c : Char} {cs : List Char} (h : fire (c :: cs) = false) :
    fire (c :: stripGo false cs) = false := by
  cases hf : fire (c :: stripGo false cs)
  · rfl
  · exfalso
    rcases (fire_eq_true_iff _).mp hf with ⟨d, r, heq, hd⟩ | ⟨d, r, heq, hd⟩
    · -- the http alternative fired on the output
      have hc : c = 'h' := by injection heq
      have hout : stripGo false cs = 't' :: 't' :: 'p' :: d :: r := by
        injection heq with _ h2
      have htake : (stripGo false cs).take 4 = cs.take 4 := by
        refine stripGo_take_eq cs.length cs le_rfl 4 (by rw [hout]; simp) ?_
        intro x hx
        rw [hout] at hx
        have hx' : x = 't' ∨ x = 't' ∨ x = 'p' ∨ x = d := by simpa using hx
        rcases hx' with rfl | rfl | rfl | rfl
        · decide
        · decide
        · decide
        · exact hd
      rw [hout] at htake
      have hcs : cs = 't' :: 't' :: 'p' :: d :: cs.drop 4 := by
        conv_lhs => rw [← List.take_append_drop 4 cs]
        rw [← htake]
        rfl
      rw [hc, hcs] at h
      rw [(fire_eq_true_iff _).mpr (Or.inl ⟨d, cs.drop 4, rfl, hd⟩)] at h
      cases h
    · -- the www alternative fired on the output
      have hc : c = 'w' := by injection heq
      have hout : stripGo false cs = 'w' :: 'w' :: d :: r := by
        injection heq with _ h2
      have htake : (stripGo false cs).take 3 = cs.take 3 := by
        refine stripGo_take_eq cs.length cs le_rfl 3 (by rw [hout]; simp) ?_
        intro x hx
        rw [hout] at hx
        have hx' : x = 'w' ∨ x = 'w' ∨ x = d := by simpa using hx
        rcases hx' with rfl | rfl | rfl
        · decide
        · decide
        · exact hd
      rw [hout] at htake
      have hcs : cs = 'w' :: 'w' :: d :: cs.drop 3 := by
        conv_lhs => rw [← List.take_append_drop 3 cs]
        rw [← htake]
        rfl
      rw [hc, hcs] at h
      rw [(fire_eq_true_iff _).mpr (Or.inr ⟨d, cs.drop 3, rfl, hd⟩)] at h
      cases h

/-- The output of the URL scanner contains no match of the pattern. -/
theorem noFire_stripGo : ∀ n : Nat, ∀ cs : List Char, cs.length ≤ n →
    noFire (stripGo false cs) := by
  intro n
  induction n with
  | zero =>
    intro cs hlen
    match cs, hlen with
    | [], _ => exact noFire_nil
  | succ n ih =>
    intro cs hlen
    match cs with
    | [] => exact noFire_nil
    | c :: cs' =>
      by_cases hf : fire (c :: cs') = true
      · have hout : stripGo false (c :: cs') = stripGo false (cs'.dropWhile notSpace) := by
          show (if fire (c :: cs') then stripGo true cs' else c :: stripGo false cs') = _
          rw [if_pos hf, stripGo_true_eq]
        rw [hout]
        refine ih _ ?_
        exact Nat.le_trans (length_dropWhile_le _ _) (by simpa using Nat.le_of_succ_le_succ hlen)
      · have hout : stripGo false (c :: cs') = c :: stripGo false cs' := by
          show (if fire (c :: cs') then stripGo true cs' else c :: stripGo false cs') = _
          rw [if_neg hf]
        rw [hout, noFire_cons_iff]
        refine ⟨fire_stripGo_false (by simpa using hf), ?_⟩
        exact ih cs' (by simpa using Nat.le_of_succ_le_succ hlen)

theorem noFire_stripUrls (cs : List Char) : noFire (stripUrls cs) :=
  noFire_stripGo cs.length cs le_rfl

/-- On a match-free list the scanner is the identity. -/
theorem stripGo_eq_self : ∀ {cs : List Char}, noFire cs → stripGo false cs = cs := by
  intro cs
  induction cs with
  | nil => intro _; rfl
  | cons c cs ih =>
    intro h
    rcases noFire_cons_iff.mp h with ⟨h0, h1⟩
    show (if fire (c :: cs) then stripGo true cs else c :: stripGo false cs) = _
    rw [if_neg (by simp [h0]), ih h1]

theorem dropWhile_dropWhile {α : Type} {p : α → Bool} :
    ∀ l : List α, (l.dropWhile p).dropWhile p = l.dropWhile p := by
  intro l
  induction l with
  | nil => rfl
  | cons x xs ih =>
    by_cases hx : p x
    · rw [List.dropWhile_cons_of_pos hx]
      exact ih
    · rw [List.dropWhile_cons_of_neg hx, List.dropWhile_cons_of_neg hx]

/-- `pyStrip` leaves the trimmed part of the input: the result is a prefix
of the leading-trimmed list. -/
theorem pyStrip_decomp (cs : List Char) :
    cs.dropWhile isSpace = pyStrip cs ++ ((cs.dropWhile isSpace).reverse.takeWhile isSpace).reverse := by
  conv_lhs => rw [← List.reverse_reverse (cs.dropWhile isSpace),
    ← List.takeWhile_append_dropWhile (p := isSpace) (l := (cs.dropWhile isSpace).reverse)]
  rw [List.reverse_append]
  rfl

theorem noFire_pyStrip {cs : List Char} (h : noFire cs) : noFire (pyStrip cs) := by
  have h1 : noFire (cs.dropWhile isSpace) := noFire_dropWhile h
  rw [pyStrip_decomp cs] at h1
  exact noFire_append_left h1

theorem pyStrip_idem (cs : List Char) : pyStrip (pyStrip cs) = pyStrip cs := by
  have hlead : (pyStrip cs).dropWhile isSpace = pyStrip cs := by
    match hT : pyStrip cs with
    | [] => rfl
    | c :: r =>
      have hA := pyStrip_decomp cs
      rw [hT, List.cons_append] at hA
      have hc : isSpace c = false := dropWhile_head_false hA
      rw [List.dropWhile_cons_of_neg (by simp [hc])]
  show (((pyStrip cs).dropWhile isSpace).reverse.dropWhile isSpace).reverse = pyStrip cs
  rw [hlead]
  have hrev : (pyStrip cs).reverse = ((cs.dropWhile isSpace).reverse).dropWhile isSpace := by
    show (((cs.dropWhile isSpace).reverse.dropWhile isSpace).reverse).reverse = _
    rw [List.reverse_reverse]
  rw [hrev, dropWhile_dropWhile, ← hrev, List.reverse_reverse]

/-- The composite cleaning step of lines 171-172 is idempotent. -/
theorem cleanComment_idem (s : String) : cleanComment (cleanComment s) = cleanComment s := by
  show String.mk (pyStrip (stripUrls (pyStrip (stripUrls s.data)))) = _
  have h1 : noFire (pyStrip (stripUrls s.data)) := noFire_pyStrip (noFire_stripUrls s.data)
  have h2 : stripUrls (pyStrip (stripUrls s.data)) = pyStrip (stripUrls s.data) :=
    stripGo_eq_self h1
  rw [h2, pyStrip_idem]
  rfl

/-- Every comment the inner item loop keeps is in cleaned accepted form. -/
theorem mem_cleanItems {items : List String} {e : String} (h : e ∈ cleanItems items) :
    10 < e.length ∧ cleanComment e = e := by
  rcases List.mem_filterMap.mp h with ⟨raw, _, hraw⟩
  by_cases hlen : 10 < (cleanComment raw).length
  · rw [if_pos hlen] at hraw
    cases hraw
    exact ⟨hlen, cleanComment_idem raw⟩
  · rw [if_neg hlen] at hraw
    cases hraw

/-- Every comment accumulated by the pagination loop is in cleaned accepted
form (given that the comments already accumulated are). -/
theorem fetchGo_accum (maxC : Nat) :
    ∀ (rs : List PageResponse) (pending : Nat) (acc : List String) (sizes : List Nat),
    (∀ e ∈ acc, 10 < e.length ∧ cleanComment e = e) →
    ∀ e ∈ fetchAccum (fetchGo maxC pending rs acc sizes), 10 < e.length ∧ cleanComment e = e := by
  intro rs
  induction rs with
  | nil => intro pending acc sizes hacc e he; exact hacc e he
  | cons r rest ih =>
    intro pending acc sizes hacc e he
    match r with
    | .err => exact hacc e he
    | .ok p =>
      have hacc' : ∀ e ∈ acc ++ cleanItems p.items, 10 < e.length ∧ cleanComment e = e := by
        intro x hx
        rcases List.mem_append.mp hx with hx | hx
        · exact hacc x hx
        · exact mem_cleanItems hx
      simp only [fetchGo] at he
      by_cases hg : (p.hasNext && decide ((acc ++ cleanItems p.items).length < maxC)) = true
      · rw [if_pos hg] at he
        exact ih _ _ _ hacc' e he
      · rw [if_neg hg] at he
        exact hacc' e he

/-- An exception caught anywhere in `get_video_comments` yields `[]`. -/
theorem runFetch_failure_empty {hasApi : Bool} {maxC : Nat} {responses : List PageResponse}
    (h : fetchFailed (runFetch maxC responses) = true) :
    get_video_comments hasApi maxC responses = [] := by
  unfold get_video_comments
  cases hasApi
  · rfl
  · match hres : runFetch maxC responses with
    | .success cs s => rw [hres] at h; simp [fetchFailed] at h
    | .failure cs s => simp

/-- The sizes recorded by the loop are exactly the reference recursion over
the accepted-count, appended to the sizes already recorded. -/
theorem fetchGo_sizes (maxC : Nat) :
    ∀ (rs : List PageResponse) (acc : List String) (ss : List Nat),
    acc.length < maxC →
    fetchSizes (fetchGo maxC (min 100 (maxC - acc.length)) rs acc ss)
      = ss ++ specSizes maxC acc.length rs := by
  intro rs
  induction rs with
  | nil => intro acc ss _; simp [fetchGo, fetchSizes, specSizes]
  | cons r rest ih =>
    intro acc ss hacc
    match r with
    | .err => simp [fetchGo, fetchSizes, specSizes]
    | .ok p =>
      have hlen : (acc ++ cleanItems p.items).length = acc.length + (cleanItems p.items).length :=
        List.length_append _ _
      simp only [fetchGo, specSizes]
      by_cases hg : (p.hasNext && decide ((acc ++ cleanItems p.items).length < maxC)) = true
      · have hg' : (p.hasNext && decide (acc.length + (cleanItems p.items).length < maxC)) = true := by
          rw [← hlen]
          exact hg
        have hacc' : (acc ++ cleanItems p.items).length < maxC := by
          rcases Bool.and_eq_true .. |>.mp hg with ⟨_, hd⟩
          exact of_decide_eq_true hd
        rw [if_pos hg, if_pos hg',
          ih (acc ++ cleanItems p.items) (ss ++ [min 100 (maxC - acc.length)]) hacc', hlen]
        simp [List.append_assoc]
      · have hg' : ¬ (p.hasNext && decide (acc.length + (cleanItems p.items).length < maxC)) = true := by
          rw [← hlen]
          exact hg
        rw [if_neg hg, if_neg hg']
        simp [fetchSizes]

/-- Bridge: on a non-trivial cap the recorded sizes of `runFetch` are the
reference recursion started at zero accepted comments. -/
theorem runFetch_sizes {maxC : Nat} (h : 1 ≤ maxC) (responses : List PageResponse) :
    fetchSizes (runFetch maxC responses) = specSizes maxC 0 responses := by
  unfold runFetch
  rw [if_pos (show 0 < maxC from h)]
  have h2 := fetchGo_sizes maxC responses [] [] (by simpa using h)
  simpa using h2

/-- Each requested size of the reference recursion is
`min 100 (cap - accepted so far)`. -/
theorem specSizes_getD (maxC : Nat) :
    ∀ (rs : List PageResponse) (already i : Nat), i < (specSizes maxC already rs).length →
    (specSizes maxC already rs).getD i 0
      = min 100 (maxC - (already + ((rs.take i).map pageGain).sum)) := by
  intro rs
  induction rs with
  | nil => intro already i hi; simp [specSizes] at hi
  | cons r rest ih =>
    intro already i hi
    match r with
    | .err =>
      simp only [specSizes] at hi ⊢
      match i, hi with
      | 0, _ => simp
    | .ok p =>
      simp only [specSizes] at hi ⊢
      match i with
      | 0 => simp
      | i + 1 =>
        rw [List.getD_cons_succ]
        simp only [List.length_cons, Nat.add_lt_add_iff_right] at hi
        by_cases hg : (p.hasNext
            && decide (already + (cleanItems p.items).length < maxC)) = true
        · rw [if_pos hg] at hi ⊢
          rw [ih (already + (cleanItems p.items).length) i hi]
          have : already + (cleanItems p.items).length + ((rest.take i).map pageGain).sum
              = already + (((PageResponse.ok p :: rest).take (i + 1)).map pageGain).sum := by
            simp [pageGain]
            omega
          rw [this]
        · rw [if_neg hg] at hi
          simp at hi

/-- A further call of the reference recursion happens only after a page
carrying a continuation token, with the accepted count below the cap. -/
theorem specSizes_continue (maxC : Nat) :
    ∀ (rs : List PageResponse) (already i : Nat),
    i + 1 < (specSizes maxC already rs).length →
    ∃ p, rs[i]? = some (PageResponse.ok p) ∧ p.hasNext = true
      ∧ already + ((rs.take (i + 1)).map pageGain).sum < maxC := by
  intro rs
  induction rs with
  | nil => intro already i hi; simp [specSizes] at hi
  | cons r rest ih =>
    intro already i hi
    match r with
    | .err =>
      simp only [specSizes, List.length_cons, List.length_nil] at hi
      omega
    | .ok p =>
      simp only [specSizes, List.length_cons] at hi
      by_cases hg : (p.hasNext && decide (already + (cleanItems p.items).length < maxC)) = true
      · rcases Bool.and_eq_true .. |>.mp hg with ⟨hnext, hlt⟩
        match i with
        | 0 =>
          refine ⟨p, by simp, hnext, ?_⟩
          simpa [pageGain] using of_decide_eq_true hlt
        | i + 1 =>
          rw [if_pos hg] at hi
          rcases ih (already + (cleanItems p.items).length) i (by omega) with ⟨q, hq, hqn, hqs⟩
          refine ⟨q, by simpa using hq, hqn, ?_⟩
          have heq : already + (((PageResponse.ok p :: rest).take (i + 1 + 1)).map pageGain).sum
              = already + (cleanItems p.items).length + ((rest.take (i + 1)).map pageGain).sum := by
            simp only [List.take_succ_cons, List.map_cons, List.sum_cons, pageGain]
            omega
          omega
      · rw [if_neg hg] at hi
        simp at hi

/-- When every fetched page supplies at least 100 accepted comments, the
number of calls of the reference recursion is at most
`ceil((cap - already) / 100)`. -/
theorem specSizes_bound (maxC : Nat) :
    ∀ (rs : List PageResponse) (already : Nat), already < maxC →
    (∀ p, PageResponse.ok p ∈ rs → 100 ≤ (cleanItems p.items).length) →
    (specSizes maxC already rs).length ≤ (maxC - already + 99) / 100 := by
  intro rs
  induction rs with
  | nil =>
    intro already _ _
    simp [specSizes]
  | cons r rest ih =>
    intro already halready hfull
    have hone : 1 ≤ (maxC - already + 99) / 100 := by
      rw [Nat.le_div_iff_mul_le (by omega)]
      omega
    match r with
    | .err =>
      simpa [specSizes] using hone
    | .ok p =>
      simp only [specSizes, List.length_cons]
      by_cases hg : (p.hasNext && decide (already + (cleanItems p.items).length < maxC)) = true
      · rcases Bool.and_eq_true .. |>.mp hg with ⟨_, hlt⟩
        have hlt' : already + (cleanItems p.items).length < maxC := of_decide_eq_true hlt
        have hgain : 100 ≤ (cleanItems p.items).length := hfull p (by simp)
        have hrec := ih (already + (cleanItems p.items).length) hlt'
          (fun q hq => hfull q (by simp [hq]))
        rw [if_pos hg]
        have hstep : (maxC - (already + (cleanItems p.items).length) + 99) + 100
            ≤ maxC - already + 99 := by omega
        have hdiv : (maxC - (already + (cleanItems p.items).length) + 99) / 100 + 1
            ≤ (maxC - already + 99) / 100 := by
          have h1 : ((maxC - (already + (cleanItems p.items).length) + 99) + 100) / 100
              ≤ (maxC - already + 99) / 100 := Nat.div_le_div_right hstep
          rwa [Nat.add_div_right _ (by omega)] at h1
        omega
      · rw [if_neg hg]
        simpa using hone

/-- The video loop emits one section per video, in list order, with the
1-based counter. -/
theorem reportBody_eq_enumFrom (cm : String → List String) :
    ∀ (n : Nat) (videos : List Video),
    reportBody n videos cm
      = ((List.enumFrom n videos).map fun p => videoSection p.1 p.2 (cm p.2.id)).flatten := by
  intro n videos
  induction videos generalizing n with
  | nil => simp [reportBody]
  | cons v rest ih => simp [reportBody, List.enumFrom, ih]

/-- Position and content of the numbered comment lines: comment `i`
(0-based) sits at line `2*i` of the inner loop's output, numbered `k + i`. -/
theorem commentLines_numbering :
    ∀ (cs : List String) (k i : Nat) (h : i < cs.length),
    (commentLines k cs)[2 * i]? = some (toString (k + i) ++ ". " ++ cs.get ⟨i, h⟩) := by
  intro cs
  induction cs with
  | nil => intro k i h; simp at h
  | cons c rest ih =>
    intro k i h
    match i with
    | 0 => simp [commentLines]
    | i + 1 =>
      have h' : i < rest.length := by simpa using Nat.lt_of_succ_lt_succ h
      have h2 : 2 * (i + 1) = 2 * i + 1 + 1 := by omega
      rw [h2]
      show ((toString k ++ ". " ++ c) :: "" :: commentLines (k + 1) rest)[2 * i + 1 + 1]? = _
      rw [List.getElem?_cons_succ, List.getElem?_cons_succ, ih (k + 1) i h']
      have h3 : k + 1 + i = k + (i + 1) := by omega
      rw [h3]
      rfl

/-- In a non-empty comment list, comment `i` (0-based) is the section's
line `7 + 2*i`, numbered `i + 1`. -/
theorem videoSection_numbering (idx : Nat) (v : Video) :
    ∀ (cs : List String) (i : Nat) (h : i < cs.length),
    (videoSection idx v cs)[7 + 2 * i]? = some (toString (i + 1) ++ ". " ++ cs.get ⟨i, h⟩) := by
  intro cs i h
  match cs, h with
  | c :: rest, h =>
    show ((
      [dashBar, "VIDÉO " ++ toString idx ++ ": " ++ v.title,
       "Canal: " ++ v.channel, "URL: " ++ v.url, ""] ++
      (("📝 TOP " ++ toString (c :: rest).length ++ " COMMENTAIRES:") :: "" ::
        commentLines 1 (c :: rest)))[7 + 2 * i]?) = _
    have h7 : 7 + 2 * i = 2 * i + 7 := by omega
    rw [h7]
    show (dashBar :: ("VIDÉO " ++ toString idx ++ ": " ++ v.title) ::
      ("Canal: " ++ v.channel) :: ("URL: " ++ v.url) :: "" ::
      ("📝 TOP " ++ toString (c :: rest).length ++ " COMMENTAIRES:") :: "" ::
        commentLines 1 (c :: rest))[2 * i + 7]? = _
    have hsteps : (dashBar :: ("VIDÉO " ++ toString idx ++ ": " ++ v.title) ::
      ("Canal: " ++ v.channel) :: ("URL: " ++ v.url) :: "" ::
      ("📝 TOP " ++ toString (c :: rest).length ++ " COMMENTAIRES:") :: "" ::
        commentLines 1 (c :: rest))[2 * i + 7]? = (commentLines 1 (c :: rest))[2 * i]? := by
      rw [show 2 * i + 7 = (2 * i + 6) + 1 by omega, List.getElem?_cons_succ,
        show 2 * i + 6 = (2 * i + 5) + 1 by omega, List.getElem?_cons_succ,
        show 2 * i + 5 = (2 * i + 4) + 1 by omega, List.getElem?_cons_succ,
        show 2 * i + 4 = (2 * i + 3) + 1 by omega, List.getElem?_cons_succ,
        show 2 * i + 3 = (2 * i + 2) + 1 by omega, List.getElem?_cons_succ,
        show 2 * i + 2 = (2 * i + 1) + 1 by omega, List.getElem?_cons_succ,
        show 2 * i + 1 = (2 * i) + 1 by omega, List.getElem?_cons_succ]
    rw [hsteps, commentLines_numbering (c :: rest) 1 i h]
    have h1 : 1 + i = i + 1 := by omega
    rw [h1]

/-- The report string always begins with the 80-character `=` banner, so it
is never the fixed no-results message. -/
theorem generate_report_ne_noResults (kw : String) (videos : List Video)
    (cm : String → List String) (now : String) :
    generate_report kw videos cm now ≠ noResultsMessage := by
  intro h
  have hhead : (generate_report kw videos cm now).data.head? = some '=' := rfl
  rw [h] at hhead
  exact absurd hhead (by decide)

/-- C1, counterexample: with cap 20, the first page yields one accepted
comment and a continuation token, and the second call raises; the code
returns `[]`, not the accumulated partial list, so the claim's
partial-results policy is false of the code. -/
theorem getVideoComments_discards_partial_cex :
    fetchFailed (runFetch 20 [PageResponse.ok ⟨["This is a sufficiently long comment one"], true⟩,
      PageResponse.err]) = true
    ∧ fetchAccum (runFetch 20 [PageResponse.ok ⟨["This is a sufficiently long comment one"], true⟩,
      PageResponse.err]) = ["This is a sufficiently long comment one"]
    ∧ get_video_comments true 20 [PageResponse.ok ⟨["This is a sufficiently long comment one"], true⟩,
      PageResponse.err] = []
    ∧ (["This is a sufficiently long comment one"] : List String) ≠ [] :=
  ⟨by decide, by decide, by decide, by decide⟩

/-- C1 (amended): if an error occurs anywhere in the pagination of
`get_video_comments` — also mid-pagination with comments already
accumulated — the loop aborts and the call returns the empty list,
discarding the accumulated comments; the error is only logged. -/
theorem getVideoComments_error_returns_empty :
    ∀ (hasApi : Bool) (maxC : Nat) (responses : List PageResponse),
    fetchFailed (runFetch maxC responses) = true →
    get_video_comments hasApi maxC responses = [] := by
  intro hasApi maxC responses h
  exact runFetch_failure_empty h

theorem getVideoComments_error_returns_empty_witness :
    fetchFailed (runFetch 20 [PageResponse.err]) = true
    ∧ get_video_comments true 20 [PageResponse.err] = [] :=
  ⟨by decide, getVideoComments_error_returns_empty true 20 [PageResponse.err] (by decide)⟩

/-- C2, counterexample: for the blank keyword the pipeline starts anyway:
the output of `run` depends on the search response (so the search is
invoked for the blank keyword), and no validation failure is produced —
the class `InvalidInputError` does not exist in the code. -/
theorem run_blank_keyword_cex :
    run true (SearchResponse.ok [⟨"v1", "Titre Un", "Chaine"⟩]) (YtdlpOutcome.ok [])
        (fun _ => []) "2026-01-01 00:00:00" "" ≠ noResultsMessage
    ∧ run true (SearchResponse.ok []) (YtdlpOutcome.ok [])
        (fun _ => []) "2026-01-01 00:00:00" "" = noResultsMessage :=
  ⟨by decide, by decide⟩

/-- C2 (amended): `run` performs no keyword validation at all — a blank
keyword is passed to the search step like any other, and with a non-empty
search result the full pipeline runs and produces the full report for the
empty keyword. -/
theorem run_no_keyword_validation :
    ∀ (hasApi : Bool) (apiResp : SearchResponse) (fallback : YtdlpOutcome)
      (world : String → List PageResponse) (now : String),
    search_videos_full hasApi apiResp fallback ≠ [] →
    run hasApi apiResp fallback world now "" =
      generate_report "" (search_videos_full hasApi apiResp fallback)
        (fun id => get_video_comments hasApi 20 (world id)) now := by
  intro hasApi apiResp fallback world now hne
  match hv : search_videos_full hasApi apiResp fallback with
  | [] => exact absurd hv hne
  | v :: rest => simp [run, hv]

theorem run_no_keyword_validation_witness :
    search_videos_full true (SearchResponse.ok [⟨"v1", "Titre Un", "Chaine"⟩])
      (YtdlpOutcome.ok []) ≠ []
    ∧ run true (SearchResponse.ok [⟨"v1", "Titre Un", "Chaine"⟩]) (YtdlpOutcome.ok [])
        (fun _ => []) "2026-01-01 00:00:00" "" =
      generate_report ""
        (search_videos_full true (SearchResponse.ok [⟨"v1", "Titre Un", "Chaine"⟩])
          (YtdlpOutcome.ok []))
        (fun id => get_video_comments true 20 ((fun _ => ([] : List PageResponse)) id))
        "2026-01-01 00:00:00" :=
  ⟨by decide,
    run_no_keyword_validation true (SearchResponse.ok [⟨"v1", "Titre Un", "Chaine"⟩])
      (YtdlpOutcome.ok []) (fun _ => []) "2026-01-01 00:00:00" (by decide)⟩

/-- C3, counterexample: with cap 20, a page whose only comment is rejected
by the cleaner and which carries a continuation token forces a second API
call: 2 calls, above ceil(20/100) = 1. -/
theorem fetch_calls_exceed_bound_cex :
    numCalls 20 [PageResponse.ok ⟨["hi"], true⟩, PageResponse.ok ⟨[], false⟩] = 2
    ∧ (20 + 99) / 100 = 1
    ∧ ¬ (numCalls 20 [PageResponse.ok ⟨["hi"], true⟩, PageResponse.ok ⟨[], false⟩]
        ≤ (20 + 99) / 100) :=
  ⟨by decide, by decide, by decide⟩

/-- C3 (amended): each page is requested with size
`min 100 (max_comments - accumulated)`; a call after the first happens
only when the previous response carried a continuation token and the
accepted count was still below the cap; and the total number of API calls
is at most `ceil(max_comments / 100)` provided every fetched page supplies
at least 100 accepted comments — without that proviso, pages whose
comments are rejected by the cleaner push the call count past the
bound. -/
theorem fetch_pagination_sizes_continuation :
    ∀ (maxC : Nat) (responses : List PageResponse), 1 ≤ maxC →
    (∀ i, i < numCalls maxC responses →
      (fetchSizes (runFetch maxC responses)).getD i 0
        = min 100 (maxC - acceptedCount responses i))
    ∧ (∀ i, i + 1 < numCalls maxC responses →
      ∃ p, responses[i]? = some (PageResponse.ok p) ∧ p.hasNext = true
        ∧ acceptedCount responses (i + 1) < maxC)
    ∧ ((∀ p, PageResponse.ok p ∈ responses → 100 ≤ (cleanItems p.items).length) →
      numCalls maxC responses ≤ (maxC + 99) / 100) := by
  intro maxC responses h
  have hs := runFetch_sizes h responses
  have hn : numCalls maxC responses = (specSizes maxC 0 responses).length := by
    rw [numCalls, hs]
  refine ⟨?_, ?_, ?_⟩
  · intro i hi
    rw [hs, specSizes_getD maxC responses 0 i (by rw [← hn]; exact hi)]
    simp [acceptedCount]
  · intro i hi
    rcases specSizes_continue maxC responses 0 i (by rw [← hn]; exact hi) with ⟨p, h1, h2, h3⟩
    exact ⟨p, h1, h2, by simpa [acceptedCount] using h3⟩
  · intro hfull
    rw [hn]
    have hb := specSizes_bound maxC responses 0 (by omega) hfull
    simpa using hb

theorem fetch_pagination_sizes_continuation_witness :
    (1 ≤ 5)
    ∧ (fetchSizes (runFetch 5 [PageResponse.err])).getD 0 0
        = min 100 (5 - acceptedCount [PageResponse.err] 0) :=
  ⟨by decide,
    (fetch_pagination_sizes_continuation 5 [PageResponse.err] (by decide)).1 0 (by decide)⟩

/-- C4, counterexample: `search_videos` maps every raw result of the
response and never truncates; with max_videos = 1 and two response items
the produced list has length 2, violating the claim's bound, which
quantifies over every raw-result sequence. -/
theorem search_videos_no_truncation_cex :
    (search_videos (SearchResponse.ok
      [⟨"a", "Titre A", "Chaine A"⟩, ⟨"b", "Titre B", "Chaine B"⟩])).length = 2
    ∧ ¬ ((search_videos (SearchResponse.ok
      [⟨"a", "Titre A", "Chaine A"⟩, ⟨"b", "Titre B", "Chaine B"⟩])).length ≤ 1) :=
  ⟨by decide, by decide⟩

/-- C4 (amended): when the search source returns at most max_videos raw
results (what the request's maxResults parameter asks for), the produced
video list is bounded by max_videos; the list always preserves the
source-returned order (ids and titles in raw-result order — the code
neither reorders nor truncates nor pads), and the report renders its
per-video sections in exactly that order. -/
theorem search_videos_order_bound :
    ∀ (maxV : Nat) (items : List RawSearchItem) (cm : String → List String),
    items.length ≤ maxV →
    (search_videos (SearchResponse.ok items)).length ≤ maxV
    ∧ (search_videos (SearchResponse.ok items)).map Video.id
        = items.map RawSearchItem.videoId
    ∧ (search_videos (SearchResponse.ok items)).map Video.title
        = items.map RawSearchItem.title
    ∧ reportBody 1 (search_videos (SearchResponse.ok items)) cm
        = ((List.enumFrom 1 (search_videos (SearchResponse.ok items))).map
            fun p => videoSection p.1 p.2 (cm p.2.id)).flatten := by
  intro maxV items cm hle
  refine ⟨?_, ?_, ?_, reportBody_eq_enumFrom cm 1 _⟩
  · simpa [search_videos] using hle
  · simp [search_videos, toVideo, List.map_map, Function.comp_def]
  · simp [search_videos, toVideo, List.map_map, Function.comp_def]

theorem search_videos_order_bound_witness :
    (([⟨"a", "Titre A", "Chaine A"⟩] : List RawSearchItem).length ≤ 2)
    ∧ ((search_videos (SearchResponse.ok [⟨"a", "Titre A", "Chaine A"⟩])).length ≤ 2
      ∧ (search_videos (SearchResponse.ok [⟨"a", "Titre A", "Chaine A"⟩])).map Video.id
          = ([⟨"a", "Titre A", "Chaine A"⟩] : List RawSearchItem).map RawSearchItem.videoId
      ∧ (search_videos (SearchResponse.ok [⟨"a", "Titre A", "Chaine A"⟩])).map Video.title
          = ([⟨"a", "Titre A", "Chaine A"⟩] : List RawSearchItem).map RawSearchItem.title
      ∧ reportBody 1 (search_videos (SearchResponse.ok [⟨"a", "Titre A", "Chaine A"⟩]))
            (fun _ => [])
          = ((List.enumFrom 1
              (search_videos (SearchResponse.ok [⟨"a", "Titre A", "Chaine A"⟩]))).map
              fun p => videoSection p.1 p.2 ((fun _ => ([] : List String)) p.2.id)).flatten) :=
  ⟨by decide,
    search_videos_order_bound 2 [⟨"a", "Titre A", "Chaine A"⟩] (fun _ => []) (by decide)⟩

/-- C5: the comment list returned by `get_video_comments` has length at
most max_comments, and every returned comment is in cleaned accepted form:
its length after URL-stripping and trimming exceeds 10, and re-cleaning
leaves it unchanged. -/
theorem getVideoComments_cleaned_bounded :
    ∀ (hasApi : Bool) (maxC : Nat) (responses : List PageResponse),
    (get_video_comments hasApi maxC responses).length ≤ maxC
    ∧ ∀ e, e ∈ get_video_comments hasApi maxC responses →
      10 < (cleanComment e).length ∧ cleanComment e = e := by
  intro hasApi maxC responses
  have hall : ∀ e ∈ fetchAccum (runFetch maxC responses),
      10 < e.length ∧ cleanComment e = e := by
    unfold runFetch
    by_cases h0 : 0 < maxC
    · rw [if_pos h0]
      exact fetchGo_accum maxC responses _ [] [] (by simp)
    · rw [if_neg h0]
      simp [fetchAccum]
  cases hasApi
  · simp [get_video_comments]
  · match hres : runFetch maxC responses with
    | .failure cs s => simp [get_video_comments, hres]
    | .success cs s =>
      rw [hres] at hall
      simp only [fetchAccum] at hall
      have hget : get_video_comments true maxC responses = cs.take maxC := by
        simp [get_video_comments, hres]
      rw [hget]
      refine ⟨List.length_take_le maxC cs, ?_⟩
      intro e he
      have hmem : e ∈ cs := (List.take_sublist maxC cs).subset he
      rcases hall e hmem with ⟨hlen, hfix⟩
      exact ⟨by rw [hfix]; exact hlen, hfix⟩

theorem getVideoComments_cleaned_bounded_witness :
    ("a sufficiently long comment" ∈ get_video_comments true 5
        [PageResponse.ok ⟨["a sufficiently long comment"], false⟩])
    ∧ (10 < (cleanComment "a sufficiently long comment").length
      ∧ cleanComment "a sufficiently long comment" = "a sufficiently long comment") :=
  ⟨by decide,
    (getVideoComments_cleaned_bounded true 5
      [PageResponse.ok ⟨["a sufficiently long comment"], false⟩]).2
      "a sufficiently long comment" (by decide)⟩

/-- C6, counterexample: the code's cleaner strips a `www`-anchored
substring that begins mid-token and has no dot after `www`, so it differs
from the spec-worded token cleaner on "this is awwwesome indeed". -/
theorem cleanComment_midtoken_cex :
    cleanComment "this is awwwesome indeed" = "this is a indeed"
    ∧ specClean "this is awwwesome indeed" = "this is awwwesome indeed"
    ∧ cleanComment "this is awwwesome indeed" ≠ specClean "this is awwwesome indeed" :=
  ⟨by decide, by decide, by decide⟩

/-- C6 (amended): the cleaning step strips every substring matching `http`
or `www` followed by one or more non-whitespace characters — matches may
begin mid-token and `www` needs no following dot — and then trims
whitespace; its output contains no further match of the pattern, and the
claim's concrete scenario holds exactly as stated. -/
theorem cleanComment_scenario :
    cleanComment "Check this out http://spam.example/x and www.more.example"
        = "Check this out  and"
    ∧ 10 < (cleanComment "Check this out http://spam.example/x and www.more.example").length
    ∧ ∀ s : String, noFire (cleanComment s).data := by
  refine ⟨by decide, by decide, ?_⟩
  intro s
  show noFire (pyStrip (stripUrls s.data))
  exact noFire_pyStrip (noFire_stripUrls s.data)

/-- C7: the cleaning step (URL-stripping, then trimming) is idempotent on
every accepted input. -/
theorem cleanComment_idempotent_on_accepted :
    ∀ x : String, 10 < (cleanComment x).length →
    cleanComment (cleanComment x) = cleanComment x := by
  intro x _
  exact cleanComment_idem x

theorem cleanComment_idempotent_on_accepted_witness :
    (10 < (cleanComment "here is a long enough comment").length)
    ∧ cleanComment (cleanComment "here is a long enough comment")
        = cleanComment "here is a long enough comment" :=
  ⟨by decide, cleanComment_idempotent_on_accepted "here is a long enough comment" (by decide)⟩

/-- C8: when the search yields zero videos, `run` returns the fixed
no-results message and never the full structured report (which always
starts with the `=` banner); this path raises nothing. -/
theorem run_zero_videos_message :
    ∀ (hasApi : Bool) (apiResp : SearchResponse) (fallback : YtdlpOutcome)
      (world : String → List PageResponse) (now keyword kw2 now2 : String)
      (videos2 : List Video) (cm2 : String → List String),
    search_videos_full hasApi apiResp fallback = [] →
    run hasApi apiResp fallback world now keyword = noResultsMessage
    ∧ run hasApi apiResp fallback world now keyword ≠ generate_report kw2 videos2 cm2 now2 := by
  intro hasApi apiResp fallback world now keyword kw2 now2 videos2 cm2 h
  have hrun : run hasApi apiResp fallback world now keyword = noResultsMessage := by
    simp [run, h]
  refine ⟨hrun, ?_⟩
  rw [hrun]
  intro hcontra
  exact generate_report_ne_noResults kw2 videos2 cm2 now2 hcontra.symm

theorem run_zero_videos_message_witness :
    (search_videos_full true (SearchResponse.ok []) (YtdlpOutcome.ok []) = [])
    ∧ (run true (SearchResponse.ok []) (YtdlpOutcome.ok []) (fun _ => [])
          "2026-01-01 00:00:00" "chats" = noResultsMessage
      ∧ run true (SearchResponse.ok []) (YtdlpOutcome.ok []) (fun _ => [])
          "2026-01-01 00:00:00" "chats"
          ≠ generate_report "chats" [] (fun _ => []) "2026-01-01 00:00:00") :=
  ⟨by decide,
    run_zero_videos_message true (SearchResponse.ok []) (YtdlpOutcome.ok []) (fun _ => [])
      "2026-01-01 00:00:00" "chats" "chats" "2026-01-01 00:00:00" [] (fun _ => [])
      (by decide)⟩

/-- C9: the report renders one section per video in list order; a video
with an empty comment list gets the explicit no-comments marker section
(never omitted), and a non-empty comment list is enumerated 1-based in
list order at the section lines `7 + 2*i`. -/
theorem generate_report_sections :
    ∀ (videos : List Video) (cm : String → List String),
    (reportBody 1 videos cm
      = ((List.enumFrom 1 videos).map fun p => videoSection p.1 p.2 (cm p.2.id)).flatten)
    ∧ (∀ (idx : Nat) (v : Video), cm v.id = [] →
      videoSection idx v (cm v.id)
        = [dashBar, "VIDÉO " ++ toString idx ++ ": " ++ v.title,
           "Canal: " ++ v.channel, "URL: " ++ v.url, "",
           "❌ Aucun commentaire disponible pour cette vidéo", ""])
    ∧ (∀ (idx : Nat) (v : Video) (cs : List String) (i : Nat) (h : i < cs.length),
      (videoSection idx v cs)[7 + 2 * i]?
        = some (toString (i + 1) ++ ". " ++ cs.get ⟨i, h⟩)) := by
  intro videos cm
  refine ⟨reportBody_eq_enumFrom cm 1 videos, ?_, ?_⟩
  · intro idx v hcm
    rw [hcm]
    rfl
  · intro idx v cs i h
    exact videoSection_numbering idx v cs i h

theorem generate_report_sections_witness :
    ((fun _ : String => ([] : List String)) "vid" = [])
    ∧ (videoSection 3 ⟨"vid", "Titre", "Chaine", "url"⟩
          ((fun _ : String => ([] : List String)) (Video.id ⟨"vid", "Titre", "Chaine", "url"⟩))
        = [dashBar, "VIDÉO " ++ toString 3 ++ ": " ++ "Titre", "Canal: " ++ "Chaine",
           "URL: " ++ "url", "", "❌ Aucun commentaire disponible pour cette vidéo", ""])
    ∧ (0 < (["un commentaire assez long"] : List String).length)
    ∧ ((videoSection 2 ⟨"vid", "Titre", "Chaine", "url"⟩ ["un commentaire assez long"])[7 + 2 * 0]?
        = some (toString (0 + 1) ++ ". "
            ++ (["un commentaire assez long"] : List String).get ⟨0, by decide⟩)) :=
  ⟨rfl,
    (generate_report_sections [] (fun _ => [])).2.1 3 ⟨"vid", "Titre", "Chaine", "url"⟩ rfl,
    by decide,
    (generate_report_sections [] (fun _ => [])).2.2 2 ⟨"vid", "Titre", "Chaine", "url"⟩
      ["un commentaire assez long"] 0 (by decide)⟩

/-- C10: the fallback yt-dlp search never raises to its caller — an error
during extraction, at whatever point of the entry iteration, yields the
empty list. -/
theorem searchWithYtDlp_error_empty :
    ∀ entries : List YtdlpEntry, searchWithYtDlp (YtdlpOutcome.errAfter entries) = [] :=
  fun _ => rfl
